import Mathlib

set_option maxRecDepth 100000

/-!
Verification development for a Python implementation of the Unix ar archive
format (file src/ar.py of the repository under study).  The Python source is
shallowly embedded: byte strings become lists of natural numbers below 256,
file handles become an explicit (data, position) pair, and every fallible
operation returns an Except value.  Python integers are unbounded, so they
are modelled by Int (Nat where the source guarantees non-negativity).
-/

/-- Byte strings (Python bytes objects): lists of byte values. -/
abbrev Bytes := List Nat

/-- Encode an ASCII string to bytes, one byte per character.  This is the
happy path of the str.encode call in the source; encodeAscii below
adds the failure case. -/
def asciiBytes (s : String) : Bytes := s.data.map Char.toNat

/-- Model of str.encode of the source: fails on any non-ASCII character. -/
def encodeAscii (s : String) : Except String Bytes :=
  if s.data.all (fun c => c.toNat < 128) then Except.ok (asciiBytes s)
  else Except.error ("encode error")

/-- Model of bytes.decode of the source: fails on any byte above 127. -/
def decodeAscii (bs : Bytes) : Except String String :=
  if bs.all (fun b => b < 128) then Except.ok (String.mk (bs.map Char.ofNat))
  else Except.error ("decode error")

/-- Archive.magic_string of the source: the 8 opening bytes of an archive. -/
def magicStringB : Bytes := asciiBytes ("!<arch>\n")

/-- Archive.magic_number of the source: the 2 bytes closing each header. -/
def magicNumberB : Bytes := [0x60, 0x0A]

/-- Characters stripped by the str.strip call (ASCII whitespace; the source
only ever strips ASCII-decoded text). -/
def isPyWs (c : Char) : Bool :=
  c = ' ' || c = '\t' || c = '\n' || c = '\x0d' || c = '\x0b' || c = '\x0c'

/-- Model of str.strip used on the 16-byte name field. -/
def pyStrip (s : String) : String :=
  String.mk (((s.data.dropWhile isPyWs).reverse.dropWhile isPyWs).reverse)

/-- Byte-level whitespace for the int() builtin, which strips surrounding
whitespace before parsing. -/
def isPyWsB (b : Nat) : Bool :=
  b = 32 || b = 9 || b = 10 || b = 13 || b = 11 || b = 12

/-- Strip whitespace bytes from both ends (what int() does before parsing). -/
def pyStripBytes (bs : Bytes) : Bytes :=
  ((bs.dropWhile isPyWsB).reverse.dropWhile isPyWsB).reverse

/-- Digit value of a byte as the int() builtin sees it (0-9, a-z, A-Z). -/
def digitVal (b : Nat) : Option Nat :=
  if 48 ≤ b ∧ b ≤ 57 then some (b - 48)
  else if 97 ≤ b ∧ b ≤ 122 then some (b - 87)
  else if 65 ≤ b ∧ b ≤ 90 then some (b - 55)
  else none

/-- Digit run of the int() builtin after the first digit: digits of the given
base, with single underscores allowed between digits. -/
def digitsRun (base : Nat) : Nat → Bytes → Option Nat
  | acc, [] => some acc
  | acc, b :: rest =>
    if b = 95 then
      match rest with
      | [] => none
      | d :: rest2 =>
        match digitVal d with
        | some v => if v < base then digitsRun base (acc * base + v) rest2 else none
        | none => none
    else
      match digitVal b with
      | some v => if v < base then digitsRun base (acc * base + v) rest else none
      | none => none

/-- A non-empty digit sequence (must start with a digit, not an underscore). -/
def parseDigits (base : Nat) : Bytes → Option Nat
  | [] => none
  | d :: rest =>
    match digitVal d with
    | some v => if v < base then digitsRun base v rest else none
    | none => none

/-- After an explicit 0o prefix, int() accepts one leading underscore. -/
def parseAfterOctPrefix : Bytes → Option Nat
  | [] => parseDigits 8 []
  | b :: rest => if b = 95 then parseDigits 8 rest else parseDigits 8 (b :: rest)

/-- Unsigned core of the int() builtin for the bases the source uses
(10 for size, time and ids, 8 for the mode field, which also admits an
explicit 0o prefix). -/
def parseCore (base : Nat) (bs : Bytes) : Option Nat :=
  if base = 8 then
    match bs with
    | b0 :: b1 :: rest =>
      if b0 = 48 ∧ (b1 = 111 ∨ b1 = 79) then parseAfterOctPrefix rest
      else parseDigits 8 (b0 :: b1 :: rest)
    | bs => parseDigits 8 bs
  else parseDigits base bs

/-- Model of the int(bytes, base) builtin used by the source: surrounding
whitespace is stripped, an optional single sign is honoured, and the digit
core is parsed in the given base; none models ValueError.  Note that int()
accepts a minus sign, so the result can be negative. -/
def pyInt (bs : Bytes) (base : Nat) : Option Int :=
  match pyStripBytes bs with
  | [] => (parseCore base []).map (fun n => ((n : Int)))
  | b :: rest =>
    if b = 45 then (parseCore base rest).map (fun n => -(n : Int))
    else if b = 43 then (parseCore base rest).map (fun n => ((n : Int)))
    else (parseCore base (b :: rest)).map (fun n => ((n : Int)))

/-- The int(str) builtin applied to ASCII text (used on extended-name
references of the form /offset). -/
def pyIntStr (s : String) (base : Nat) : Option Int :=
  pyInt (s.data.map Char.toNat) base

/-- Errors of the embedded program, one constructor per Python exception
site relevant to the claims. -/
inductive Err where
  /-- Exception('truncated file') raised by _read. -/
  | truncated
  /-- Exception('invalid integer: ...') raised by _read_int, and the
  uncaught ValueError of the int() call on an extended-name reference. -/
  | invalidInt
  /-- Exception('wrong archive magic string'). -/
  | wrongArchiveMagic
  /-- Exception('wrong magic number for header ...'). -/
  | wrongHeaderMagic
  /-- Exception('out of bound extended name: ...'). -/
  | outOfBoundName
  /-- AttributeError: extended-name reference with no filename table. -/
  | attributeNone
  /-- OSError from seeking to a negative position. -/
  | negativeSeek
  /-- ValueError from file.read with an argument below -1. -/
  | valueErrorRead
  /-- UnicodeDecodeError from decoding a non-ASCII byte. -/
  | decodeError
  /-- UnicodeEncodeError from encoding a non-ASCII character. -/
  | encodeError
  /-- StopIteration from next() on an empty generator. -/
  | stopIteration
  /-- Marker for a diverging loop of the source (the model runs out of
  fuel exactly when the Python loop would never terminate). -/
  | outOfFuel
  deriving Repr, DecidableEq

/-- Model of _read of the source: read exactly n bytes from the stream at
the given position or fail with the truncated-file error. -/
def readExact (src : Bytes) (pos n : Nat) : Except Err (Bytes × Nat) :=
  let res := (src.drop pos).take n
  if res.length = n then Except.ok (res, pos + n) else Except.error Err.truncated

/-- Model of file.read on a plain binary file: a non-negative argument reads
at most that many bytes, -1 reads to end of file, anything below -1 raises
ValueError. -/
def pythonRead (src : Bytes) (pos : Nat) (n : Int) : Except Err (Bytes × Nat) :=
  if 0 ≤ n then
    let res := (src.drop pos).take n.toNat
    Except.ok (res, pos + res.length)
  else if n = -1 then
    let res := src.drop pos
    Except.ok (res, pos + res.length)
  else Except.error Err.valueErrorRead

/-- Model of _read_int of the source applied to a field already read: an
all-space field decodes to 0, otherwise the int() builtin decides, any
failure becoming the invalid-integer error. -/
def readIntField (field : Bytes) (base : Nat) : Except Err Int :=
  if field = List.replicate field.length 32 then Except.ok 0
  else
    match pyInt field base with
    | some v => Except.ok v
    | none => Except.error Err.invalidInt

/-- Model of _read_int of the source: read an n-byte field and decode it. -/
def readInt (src : Bytes) (pos n base : Nat) : Except Err (Int × Nat) := do
  let (bs, p) ← readExact src pos n
  let v ← readIntField bs base
  Except.ok (v, p)

/-- Archive.Header of the source: one entry's metadata, parsed from 60 bytes
of the backing stream (16-byte name, five numeric fields, 2-byte magic).
The offset field is the absolute position where the payload begins, the
position field the absolute position where the header itself begins. -/
structure Header where
  name : String
  mtime : Int
  oid : Int
  gid : Int
  mode : Int
  size : Int
  offset : Nat
  position : Nat
  deriving Repr, DecidableEq, Inhabited

/-- Header.space of the source: payload size rounded up to even (Python
percent on a possibly negative size, hence Int.emod). -/
def Header.space (h : Header) : Int := h.size + h.size % 2

/-- The byte-by-byte loop of Archive.Header resolving an extended name:
read and ASCII-decode one character at a time until a newline; running past
the end of the stream is the truncated-file error of _read. -/
def readNameLoop : Bytes → Except Err (List Char)
  | [] => Except.error Err.truncated
  | b :: rest =>
    if b = 10 then Except.ok []
    else if b < 128 then do
      let cs ← readNameLoop rest
      Except.ok (Char.ofNat b :: cs)
    else Except.error Err.decodeError

/-- Read an extended name from the stream starting at the given position. -/
def readNameChars (src : Bytes) (pos : Nat) : Except Err (List Char) :=
  readNameLoop (src.drop pos)

/-- The trailing-slash strip of Archive.Header (name.endswith('/') followed
by name[:-1]): remove exactly one terminator slash if present. -/
def stripOneSlash (s : String) : String :=
  if s.data.getLast? = some '/' then String.mk s.data.dropLast else s

/-- Extended-name resolution of Archive.Header for a name field starting
with a slash: parse the decimal offset, check it against the table size
(AttributeError if the archive has no filename table), seek to the table
offset plus the reference and read up to the newline.  The stream position
of the caller is untouched, modelling the SaveFileSeek guard. -/
def resolveName (fn : Option Header) (src : Bytes) (name0 : String) :
    Except Err String :=
  match pyIntStr (name0.drop 1) 10 with
  | none => Except.error Err.invalidInt
  | some idx =>
    match fn with
    | none => Except.error Err.attributeNone
    | some f =>
      if f.size ≤ idx then Except.error Err.outOfBoundName
      else
        let start : Int := (f.offset : Int) + idx
        if start < 0 then Except.error Err.negativeSeek
        else do
          let cs ← readNameChars src start.toNat
          Except.ok (String.mk cs)

/-- The name-classification block of Archive.Header.__init__: the two
special names are kept as they are; any other name starting with a slash
goes through extended-name resolution; one trailing terminator slash is
stripped. -/
def parseName (fn : Option Header) (src : Bytes) (name0 : String) :
    Except Err String :=
  if name0 = ("/") ∨ name0 = ("//") then Except.ok name0
  else do
    let n1 ← if name0.data.head? = some '/' then resolveName fn src name0
             else Except.ok name0
    Except.ok (stripOneSlash n1)

/-- Archive.Header.__init__ of the source: parse one header at the given
position, resolving extended names through the filename table reference fn
currently held by the archive.  Returns the header and the stream position
after the 2-byte magic (the payload start). -/
def parseHeader (fn : Option Header) (src : Bytes) (pos : Nat) :
    Except Err (Header × Nat) := do
  let (nameB, p1) ← readExact src pos 16
  let nameS ← (decodeAscii nameB).mapError (fun _ => Err.decodeError)
  let name ← parseName fn src (pyStrip nameS)
  let (mtime, p2) ← readInt src p1 12 10
  let (oid, p3) ← readInt src p2 6 10
  let (gid, p4) ← readInt src p3 6 10
  let (mode, p5) ← readInt src p4 8 8
  let (size, p6) ← readInt src p5 10 10
  let (mg, p7) ← readExact src p6 2
  if mg = magicNumberB then
    Except.ok ({ name := name, mtime := mtime, oid := oid, gid := gid,
                 mode := mode, size := size, offset := p7, position := pos }, p7)
  else Except.error Err.wrongHeaderMagic

/-- Result of the open-time walk: the visible headers, the full parse trace
(every header in the order parsed, instrumentation used only to state
ordering properties), the symbol-index reference and the filename-table
reference. -/
structure WalkResult where
  headers : List Header
  trace : List Header
  index : Option Header
  filenames : Option Header
  deriving Repr, DecidableEq

/-- The while-loop of Archive.__init__: parse a header at the current
position, classify it (slash name to the symbol index, double-slash to the
filename table, anything else appended to the visible list), then seek
forward by the header's space.  The relative seek of the source can move
backwards when a size field is negative, so the loop need not terminate;
the fuel argument makes the model total, and archiveInit below passes
enough fuel that fuel exhaustion coincides exactly with divergence of the
Python loop (a repeated position reproduces forever because the next
position depends only on the current one). -/
def walk (src : Bytes) (pos : Nat) (hs tr : List Header)
    (idx fn : Option Header) : Nat → Except Err WalkResult
  | 0 => if pos < src.length then Except.error Err.outOfFuel
         else Except.ok ⟨hs, tr, idx, fn⟩
  | fuel + 1 =>
    if pos < src.length then do
      let (h, p) ← parseHeader fn src pos
      let hs' := if h.name = ("/") then hs
                 else if h.name = ("//") then hs else hs ++ [h]
      let idx' := if h.name = ("/") then some h else idx
      let fn' := if h.name = ("/") then fn
                 else if h.name = ("//") then some h else fn
      let next : Int := (p : Int) + h.space
      if next < 0 then Except.error Err.negativeSeek
      else walk src next.toNat hs' (tr ++ [h]) idx' fn' fuel
    else Except.ok ⟨hs, tr, idx, fn⟩

/-- Archive of the source: the backing file's path and bytes, the visible
headers, the two special references, and the pending-insert list (each
inserted header paired with the bytes of the archive it came from, since
its payload is copied from that archive's backing stream at commit time).
The trace field records the open-time parse order (instrumentation). -/
structure Archive where
  path : String
  srcData : Bytes
  headers : List Header
  trace : List Header
  index : Option Header
  filenames : Option Header
  inserted : List (Header × Bytes)
  deriving Repr, DecidableEq, Inhabited

/-- Archive.__init__ of the source: check the 8-byte magic, then walk the
file, starting just after the magic, collecting headers until the recorded
end of file. -/
def archiveInit (path : String) (src : Bytes) : Except Err Archive := do
  if src.take 8 = magicStringB then do
    let w ← walk src 8 [] [] none none (src.length + 1)
    Except.ok { path := path, srcData := src, headers := w.headers,
                trace := w.trace, index := w.index, filenames := w.filenames,
                inserted := [] }
  else Except.error Err.wrongArchiveMagic

/-- Archive.merge of the source: append every visible header of the other
archive to the pending-insert list, remembering the other archive's bytes
as the copy source. -/
def Archive.mergeFrom (a b : Archive) : Archive :=
  { a with inserted := a.inserted ++ b.headers.map (fun h => (h, b.srcData)) }

/-- Archive.File of the source: the bounded content stream over one entry.
Holds the header, the backing bytes of the header's own archive, the
backing stream's cursor (seeked to the payload start on creation) and the
count of bytes already returned (self.__read). -/
structure File where
  header : Header
  src : Bytes
  pos : Nat
  readCount : Nat
  deriving Repr, DecidableEq

/-- Archive.Header.open of the source: bind a content stream to a header,
seeking the backing stream to the payload start. -/
def fileOpen (h : Header) (src : Bytes) : File :=
  { header := h, src := src, pos := h.offset, readCount := 0 }

/-- Archive.File.read of the source: if no bytes remain, return the empty
result; otherwise ask the backing stream for min(size, left) bytes and
count whatever actually came back. -/
def fileRead (st : File) (n : Int) : Except Err (Bytes × File) :=
  let left : Int := st.header.size - st.readCount
  if left = 0 then Except.ok ([], st)
  else do
    let (res, p) ← pythonRead st.src st.pos (min n left)
    Except.ok (res, { st with pos := p, readCount := st.readCount + res.length })

/-- The buffer size shutil.copyfileobj passes to each read call (the exact
value does not change the copied bytes, only the chunking). -/
def copyBufSize : Int := 65536

/-- The shutil.copyfileobj loop over a content stream: read a buffer, stop
on an empty result, otherwise append and continue.  Fuel makes the loop
total; copyFileAll passes enough that exhaustion is unreachable. -/
def copyFileLoop (st : File) : Nat → Except Err Bytes
  | 0 => Except.error Err.outOfFuel
  | fuel + 1 => do
    let (buf, st') ← fileRead st copyBufSize
    if buf = [] then Except.ok []
    else do
      let rest ← copyFileLoop st' fuel
      Except.ok (buf ++ rest)

/-- shutil.copyfileobj(header.open(), dst) of the commit path: copy one
pending entry's payload from its source archive. -/
def copyFileAll (h : Header) (src : Bytes) : Except Err Bytes :=
  copyFileLoop (fileOpen h src) (h.size.toNat + 3)

/-- Python '%Nd' formatting of an integer: decimal text, space-padded on
the left to the width, never truncated when wider. -/
def pyFormatD (w : Nat) (n : Int) : String :=
  let s := toString n
  String.mk (List.replicate (w - s.length) ' ') ++ s

/-- Python '%No' formatting of an integer: octal digits with a sign for
negative values, space-padded on the left to the width. -/
def pyFormatO (w : Nat) (n : Int) : String :=
  let s := (if n < 0 then ("-") else ("")) ++ String.mk (Nat.toDigits 8 n.natAbs)
  String.mk (List.replicate (w - s.length) ' ') ++ s

/-- The first loop of Archive.__exit__ (lines 176-183 of the source): for
each pending header append the terminator slash; a resulting name longer
than 16 bytes is recorded in the long-name list and replaced by a
reference /offset, the running offset growing by the name length plus one
for the newline.  Returns the long names, the (final name, header, source
bytes) list and the final running offset. -/
def computeExtended : List (Header × Bytes) → Int →
    List String × List (String × Header × Bytes) × Int
  | [], off => ([], [], off)
  | (h, src) :: rest, off =>
    let name := h.name ++ ("/")
    if 16 < name.length then
      let newname := ("/") ++ toString off
      let (fs, ex, off') := computeExtended rest (off + (name.length + 1 : Nat))
      (name :: fs, (newname, h, src) :: ex, off')
    else
      let (fs, ex, off') := computeExtended rest off
      (fs, (name, h, src) :: ex, off')

/-- Lines 186-191 of the source: even-align the final table size, noting
whether a pad byte is needed. -/
def spacePad (off : Int) : Int × Bool :=
  if off % 2 = 0 then (off, false) else (off + 1, true)

/-- Encode each long name and append a newline, in order (the write loops
of the two table-writing branches). -/
def joinNamesE : List String → Except Err Bytes
  | [] => Except.ok []
  | n :: rest => do
    let nb ← (encodeAscii n).mapError (fun _ => Err.encodeError)
    let rb ← joinNamesE rest
    Except.ok (nb ++ [10] ++ rb)

/-- Pure form of joinNamesE on ASCII names (used to state properties of
the filename table's byte content). -/
def joinNames (names : List String) : Bytes :=
  names.foldr (fun n acc => asciiBytes n ++ [10] ++ acc) []

/-- Lines 192-222 of Archive.__exit__: write the extended-filename-table
section of the new archive.  With no prior table and no new long names,
nothing; with no prior table but new names, a synthesized double-slash
header with blank fields and the computed size field; with a prior table,
its first 48 header bytes copied, the size field rewritten, the old body
copied and the new names appended; with a prior table and no new names,
the whole old table copied verbatim. -/
def writeTable (fn : Option Header) (src : Bytes) (names : List String)
    (space : Int) (pad : Bool) : Except Err Bytes :=
  match fn with
  | none =>
    if names.isEmpty then Except.ok []
    else do
      let body ← joinNamesE names
      Except.ok (asciiBytes ("//") ++ List.replicate 46 32 ++
                 asciiBytes (pyFormatD 10 space) ++ magicNumberB ++ body ++
                 (if pad then [10] else []))
  | some f =>
    if names.isEmpty then do
      let (blob, _) ← pythonRead src f.position (60 + f.space)
      Except.ok blob
    else do
      let (hdr, _) ← pythonRead src f.position 48
      let (oldBody, _) ← pythonRead src f.offset f.size
      let body ← joinNamesE names
      Except.ok (hdr ++ asciiBytes (pyFormatD 10 space) ++ magicNumberB ++
                 oldBody ++ body ++ (if pad then [10] else []))

/-- Lines 227-235 of Archive.__exit__: serialize each pending entry: the
final name padded with spaces to 16 bytes, the five numeric fields in
fixed width, the 2-byte magic, then the payload copied from the entry's
source stream.  No pad byte is written after an odd-sized payload. -/
def writeInserted : List (String × Header × Bytes) → Except Err Bytes
  | [] => Except.ok []
  | (name, h, src) :: rest => do
    let nb ← (encodeAscii name).mapError (fun _ => Err.encodeError)
    let stats := pyFormatD 12 h.mtime ++ pyFormatD 6 h.oid ++
                 pyFormatD 6 h.gid ++ pyFormatO 8 h.mode ++ pyFormatD 10 h.size
    let payload ← copyFileAll h src
    let restB ← writeInserted rest
    Except.ok (nb ++ List.replicate (16 - name.length) 32 ++ asciiBytes stats ++
               magicNumberB ++ payload ++ restB)

/-- The rewrite of Archive.__exit__ (lines 166-235): the full content of
the temporary file built during a merge commit: the 8-byte magic, the
extended-filename-table section, a raw copy of the original file from the
first visible header's position to end of file, then the serialized
pending entries.  The next(self.headers) call on an archive without
visible entries raises StopIteration. -/
def buildRewrite (a : Archive) : Except Err Bytes := do
  let startOffset : Int := match a.filenames with | some f => f.size | none => 0
  let (names, extended, off) := computeExtended a.inserted startOffset
  let (space, pad) := spacePad off
  let tbl ← writeTable a.filenames a.srcData names space pad
  match a.headers with
  | [] => Except.error Err.stopIteration
  | h :: _ => do
    let newPart ← writeInserted extended
    Except.ok (magicStringB ++ tbl ++ a.srcData.drop h.position ++ newPart)

/-- Archive.__exit__ of the source, observed through the file system (a map
from paths to byte contents): with an empty pending-insert list the close
is a no-op; otherwise the new archive is built in a temporary file and
copied over the target path only when the whole rewrite succeeded, any
failure leaving the file system untouched. -/
def archiveExitFs (a : Archive) (fs : String → Bytes) :
    (String → Bytes) × Option Err :=
  if a.inserted.isEmpty then (fs, none)
  else
    match buildRewrite a with
    | Except.ok out => ((fun p => if p = a.path then out else fs p), none)
    | Except.error e => (fs, some e)

/-!  Concrete archives used to evaluate the model at specific inputs.  -/

/-- Decidable equality on results, so that concrete runs of the model can
be checked by the decide tactic. -/
instance {ε α : Type} [DecidableEq ε] [DecidableEq α] : DecidableEq (Except ε α)
  | Except.ok a, Except.ok b =>
    if h : a = b then Decidable.isTrue (by rw [h])
    else Decidable.isFalse (by intro c; cases c; exact h rfl)
  | Except.ok _, Except.error _ => Decidable.isFalse (by intro c; cases c)
  | Except.error _, Except.ok _ => Decidable.isFalse (by intro c; cases c)
  | Except.error e, Except.error e' =>
    if h : e = e' then Decidable.isTrue (by rw [h])
    else Decidable.isFalse (by intro c; cases c; exact h rfl)

/-- Build one 60-byte header with the given 16-byte name (space padded),
blank mtime, ids and mode fields, the given 10-byte size field, and the
2-byte magic. -/
def hdrBytes (name : String) (sizeField : String) : Bytes :=
  asciiBytes name ++ List.replicate (16 - name.length) 32 ++
  List.replicate 12 32 ++ List.replicate 6 32 ++ List.replicate 6 32 ++
  List.replicate 8 32 ++ asciiBytes sizeField ++ magicNumberB

/-- A one-entry archive (entry a, empty payload), used as a merge target. -/
def tBytes : Bytes := magicStringB ++ hdrBytes ("a") ("         0")

/-- A two-entry archive whose first entry b has an odd payload size (one
byte, followed by its pad byte) and whose second entry c is empty. -/
def srcOddBytes : Bytes :=
  magicStringB ++ hdrBytes ("b") ("         1") ++ asciiBytes ("X") ++ [10] ++
  hdrBytes ("c") ("         0")

/-- An archive with one entry whose name has 15 characters, so that name
plus terminator slash fills the 16-byte field exactly. -/
def srcInlineBytes : Bytes :=
  magicStringB ++ hdrBytes ("abcdefghijklmno/") ("         0")

/-- An archive with a filename table (size field 20, body of 19 bytes plus
one pad newline) and one entry with a 17-character extended name. -/
def srcLongBytes : Bytes :=
  magicStringB ++ hdrBytes ("//") ("        20") ++
  asciiBytes ("abcdefghijklmnopq/\n\n") ++ hdrBytes ("/0") ("         0")

/-- A well-formed two-entry archive: entry a with 2 payload bytes, entry b
with 4 payload bytes. -/
def twoEntryBytes : Bytes :=
  magicStringB ++ hdrBytes ("a") ("         2") ++ asciiBytes ("hi") ++
  hdrBytes ("b") ("         4") ++ asciiBytes ("wxyz")

/-- A 340-byte archive whose second entry carries size field -128, making
the open-time walk jump backwards: entry a at position 8 jumps to 268,
entry b at 268 jumps back to 200, entry c at 200 jumps to end of file. -/
def jumpBytes : Bytes :=
  magicStringB ++ hdrBytes ("a") ("       200") ++ List.replicate 132 0 ++
  hdrBytes ("c") ("        80") ++ List.replicate 8 0 ++
  hdrBytes ("b") ("      -128") ++ List.replicate 12 0

/-- The commit output for merging the odd-then-empty source into the
one-entry target. -/
def oddMergeOut : Except Err Bytes := do
  let t ← archiveInit ("t") tBytes
  let s ← archiveInit ("s") srcOddBytes
  buildRewrite (t.mergeFrom s)

/-- The commit output for merging the 15-character-name source into the
one-entry target. -/
def inlineMergeOut : Except Err Bytes := do
  let t ← archiveInit ("t") tBytes
  let s ← archiveInit ("s") srcInlineBytes
  buildRewrite (t.mergeFrom s)

/-- The target archive staged with the extended-name source's entry. -/
def longMergeArchive : Except Err Archive := do
  let t ← archiveInit ("t") tBytes
  let s ← archiveInit ("s") srcLongBytes
  Except.ok (t.mergeFrom s)

/-- A concrete pending entry with a 17-character name, as staged by the
extended-name merge. -/
def longNameEntry : Header × Bytes :=
  (Header.mk ("abcdefghijklmnopq") 0 0 0 0 0 148 88, srcLongBytes)

/-- The first header of the well-formed two-entry archive. -/
def twoEntryFirst : Option Header :=
  (archiveInit ("f") twoEntryBytes).toOption.bind (fun a => a.headers.head?)

/-- The classification predicate of the open-time walk: a header is visible
when its name is neither the symbol-index slash nor the filename-table
double slash. -/
def isVisible (h : Header) : Bool :=
  !(h.name == ("/")) && !(h.name == ("//"))

/-- Value of a pure digit run (bytes 48-57) in the given base. -/
def digitsValue (base : Nat) (ds : Bytes) : Int :=
  ((ds.foldl (fun a d => a * base + (d - 48)) 0 : Nat) : Int)

/-- Run a sequence of read calls on a content stream, totalling the bytes
returned by the successful reads (an error stops the sequence, as the
exception would). -/
def runReads : File → List Int → Nat
  | _, [] => 0
  | st, n :: ns =>
    match fileRead st n with
    | Except.ok (bs, st') => bs.length + runReads st' ns
    | Except.error _ => 0

/-- Resolution of an extended-name reference within the filename table
blob: read characters up to the newline starting at the referenced offset
(the loop of Archive.Header), then strip one trailing slash. -/
def resolveExtName (table : Bytes) (idx : Nat) : Except Err String := do
  let cs ← readNameChars table idx
  Except.ok (stripOneSlash (String.mk cs))

/-- C1: the claim says every pending entry's payload copy is followed by one
pad byte when its size is odd, preserving the space invariant of the
rewritten archive.  Evaluating the commit on the failing input (merging a
source whose first entry has payload size 1 into a one-entry target) shows
the code writes no pad byte: the single payload byte X at offset 128 is
immediately followed by the next serialized header at offset 129 instead
of 130, the whole output has odd length 189, and re-opening the rewritten
archive fails because the following header is parsed one byte off. -/
theorem c1_code_bug_eval :
    oddMergeOut.map List.length = Except.ok 189 ∧
    oddMergeOut.map (fun out => (out.drop 128).take 2) =
      Except.ok (asciiBytes ("Xc")) ∧
    oddMergeOut.bind (fun out => archiveInit ("m") out) =
      Except.error Err.invalidInt := by
  decide

/-- C3 counterexample: the claim's threshold is a name length of at least
16 bytes after appending the terminator slash; a 15-character name reaches
exactly 16 bytes with the terminator, yet the commit writes it inline: the
on-disk 16-byte name field of the rewritten archive is the name itself
with its terminator, which does not start with a slash and so is not an
extended reference. -/
theorem c3_counterexample :
    16 ≤ (("abcdefghijklmno") ++ ("/")).length ∧
    inlineMergeOut.map (fun out => (out.drop 68).take 16) =
      Except.ok (asciiBytes ("abcdefghijklmno/")) ∧
    inlineMergeOut.map (fun out => (out.drop 68).take 1) = Except.ok [97] ∧
    (97 : Nat) ≠ 47 := by
  decide

/-- C4 counterexample: merging one 17-character name (table entry of 19
bytes) into a target without a table gives cumulative table size 19, but
the 10-byte size field the commit writes at offsets 56-65 of the output is
the even-rounded 20, not the claimed 19: the pad byte is counted in the
size field. -/
theorem c4_counterexample :
    longMergeArchive.map (fun a => (computeExtended a.inserted 0).2.2) =
      Except.ok 19 ∧
    (longMergeArchive.bind buildRewrite).map (fun out => (out.drop 56).take 10) =
      Except.ok (asciiBytes ("        20")) ∧
    (longMergeArchive.bind buildRewrite).map (fun out =>
      pyInt ((out.drop 56).take 10) 10) = Except.ok (some 20) ∧
    (20 : Int) ≠ 19 := by
  decide

/-- C5 counterexample: a field holding the text -1 is neither all spaces
nor rejected: the int() builtin honours the minus sign, so read_uint
returns the negative value -1 instead of failing with MalformedInteger. -/
theorem c5_counterexample :
    readIntField (asciiBytes ("        -1")) 10 = Except.ok (-1) ∧
    (-1 : Int) < 0 := by
  decide

/-- C7 counterexample: on a successfully opened archive whose first entry
declares size 2, a single read request of -1 is forwarded to the backing
stream as min(-1, 2) = -1, a read-to-end, returning the 66 bytes from the
payload start to end of file: more than min(n, remaining) and more than
the declared size. -/
theorem c7_counterexample :
    twoEntryFirst.map Header.size = some 2 ∧
    twoEntryFirst.map (fun h =>
      (fileRead (fileOpen h twoEntryBytes) (-1)).map (fun p => p.1.length)) =
      some (Except.ok 66) ∧
    min (-1 : Int) 2 = -1 ∧ ¬((66 : Int) ≤ 2) := by
  decide

/-- C8 counterexample: the 340-byte archive with a negative size field
opens successfully with visible entries a, b, c whose header positions are
8, 268, 200 in listing order: the positions are not strictly increasing,
so listing does not follow on-disk order. -/
theorem c8_counterexample :
    (archiveInit ("f") jumpBytes).toOption.map
      (fun a => a.headers.map (fun h => (h.name, h.position))) =
      some [(("a"), 8), (("b"), 268), (("c"), 200)] ∧
    ¬ List.Pairwise (fun x y => x < y) [8, 268, 200] := by
  decide

/-- Any function whose results are all errors turns a bind into an error. -/
lemma except_bind_error {α β : Type} (x : Except Err α) (f : α → Except Err β)
    (h : ∀ v, ∃ e, f v = Except.error e) : ∃ e, (x >>= f) = Except.error e := by
  cases x with
  | error e => exact ⟨e, rfl⟩
  | ok v => exact h v

/-- C2: a merge commit builds the whole new archive apart and replaces the
target only on full success: whenever the close reports any error, the
file system is exactly as before (all-or-nothing commit). -/
theorem c2_theorem (a : Archive) (fs : String → Bytes) (e : Err)
    (h : (archiveExitFs a fs).2 = some e) : (archiveExitFs a fs).1 = fs := by
  unfold archiveExitFs at h ⊢
  by_cases hi : a.inserted.isEmpty
  · simp [hi] at h
  · cases hb : buildRewrite a with
    | ok out => simp [hi, hb] at h
    | error e' => simp [hi, hb]

/-- An archive whose commit necessarily fails: pending inserts but no
visible header, so the rewrite's next() call raises StopIteration. -/
def noHeaderArchive : Archive :=
  { path := ("t"), srcData := magicStringB, headers := [], trace := [],
    index := none, filenames := none,
    inserted := [({ name := ("z"), mtime := 0, oid := 0, gid := 0, mode := 0,
                    size := 0, offset := 0, position := 0 }, [])] }

/-- A concrete file system assigning empty bytes to every path. -/
def emptyFs : String → Bytes := fun _ => []

/-- Witness for c2_theorem: a concrete failing commit leaves the concrete
file system untouched. -/
theorem c2_witness : (archiveExitFs noHeaderArchive emptyFs).1 = emptyFs :=
  c2_theorem noHeaderArchive emptyFs Err.stopIteration (by decide)

/-- C9: with an empty pending-insert list the close performs no rewrite:
the file system (hence every byte of the target file) is unchanged and no
error is reported. -/
theorem c9_theorem (a : Archive) (fs : String → Bytes) (h : a.inserted = []) :
    archiveExitFs a fs = (fs, none) := by
  unfold archiveExitFs
  simp [h]

/-- Witness for c9_theorem: the archive opened from the concrete one-entry
target has an empty pending list and its close changes nothing. -/
theorem c9_witness :
    archiveExitFs ((archiveInit ("t") tBytes).toOption.getD default) emptyFs =
      (emptyFs, none) :=
  c9_theorem ((archiveInit ("t") tBytes).toOption.getD default) emptyFs (by decide)

/-- C10: committing a non-empty pending list into an archive with no
visible entries fails with an exception (the rewrite unconditionally asks
for the first visible header) and leaves the target untouched. -/
theorem c10_theorem (a : Archive) (fs : String → Bytes) (h1 : a.headers = [])
    (h2 : a.inserted ≠ []) :
    (archiveExitFs a fs).1 = fs ∧ ∃ e, (archiveExitFs a fs).2 = some e := by
  have hb : ∃ e, buildRewrite a = Except.error e := by
    unfold buildRewrite
    simp only [h1]
    split <;>
      exact except_bind_error _ _ (fun tbl => ⟨Err.stopIteration, rfl⟩)
  obtain ⟨e, hb⟩ := hb
  have hi : a.inserted.isEmpty = false := by
    cases hins : a.inserted with
    | nil => exact absurd hins h2
    | cons x xs => simp [hins]
  unfold archiveExitFs
  rw [hi]
  simp [hb]

/-- Witness for c10_theorem: the concrete no-visible-entry archive with one
pending insert fails to commit and the file system is unchanged. -/
theorem c10_witness :
    (archiveExitFs noHeaderArchive emptyFs).1 = emptyFs ∧
    ∃ e, (archiveExitFs noHeaderArchive emptyFs).2 = some e :=
  c10_theorem noHeaderArchive emptyFs (by decide) (by decide)

/-- C6: opening fails with the archive-magic error whenever the file is
shorter than 8 bytes or its first 8 bytes differ from the magic string,
and the outcome depends only on those first 8 bytes (no header bytes
beyond the initial magic check are read: any file with the same first 8
bytes fails identically). -/
theorem c6_theorem (p : String) (f : Bytes)
    (h : f.length < 8 ∨ f.take 8 ≠ magicStringB) :
    archiveInit p f = Except.error Err.wrongArchiveMagic ∧
    ∀ (q : String) (g : Bytes), g.take 8 = f.take 8 →
      archiveInit q g = Except.error Err.wrongArchiveMagic := by
  have hm : f.take 8 ≠ magicStringB := by
    rcases h with h | h
    · intro he
      have hl : (f.take 8).length = 8 := by rw [he]; decide
      rw [List.length_take] at hl
      omega
    · exact h
  refine ⟨?_, ?_⟩
  · unfold archiveInit
    simp [hm]
  · intro q g hg
    unfold archiveInit
    rw [hg]
    simp [hm]

/-- Witness for c6_theorem: a one-byte file fails the magic check. -/
theorem c6_witness : archiveInit ("p") [0] = Except.error Err.wrongArchiveMagic :=
  (c6_theorem ("p") [0] (by decide)).1

/-- Decimal-digit bytes are kept by the underscore-aware digit run, which
accumulates them exactly as a fold. -/
lemma digitsRun_digits (base : Nat) :
    ∀ (ds : Bytes) (acc : Nat), (∀ d ∈ ds, 48 ≤ d ∧ d ≤ 57 ∧ d - 48 < base) →
      digitsRun base acc ds =
        some (ds.foldl (fun a d => a * base + (d - 48)) acc) := by
  intro ds
  induction ds with
  | nil => intro acc _; rfl
  | cons d rest ih =>
    intro acc hds
    obtain ⟨hd1, hd2, hd3⟩ := hds d (by simp)
    have h95 : ¬(d = 95) := by omega
    have hdv : digitVal d = some (d - 48) := by
      unfold digitVal
      rw [if_pos ⟨hd1, hd2⟩]
    conv_lhs => rw [digitsRun.eq_def]
    simp only [if_neg h95, hdv, if_pos hd3]
    rw [List.foldl_cons]
    exact ih (acc * base + (d - 48)) (fun x hx => hds x (by simp [hx]))

/-- A digit sequence parses through parseDigits to its folded value. -/
lemma parseDigits_digits (base : Nat) (d : Nat) (rest : Bytes)
    (hds : ∀ x ∈ d :: rest, 48 ≤ x ∧ x ≤ 57 ∧ x - 48 < base) :
    parseDigits base (d :: rest) =
      some ((d :: rest).foldl (fun a x => a * base + (x - 48)) 0) := by
  obtain ⟨hd1, hd2, hd3⟩ := hds d (by simp)
  have hdv : digitVal d = some (d - 48) := by
    unfold digitVal
    rw [if_pos ⟨hd1, hd2⟩]
  simp only [parseDigits, hdv, if_pos hd3, List.foldl_cons]
  have := digitsRun_digits base rest (0 * base + (d - 48))
    (fun x hx => hds x (by simp [hx]))
  simpa using this

/-- For the bases the source uses, a digit sequence passes parseCore
unchanged (the octal-prefix arm cannot fire on digit bytes). -/
lemma parseCore_digits (base : Nat) (d : Nat) (rest : Bytes)
    (hds : ∀ x ∈ d :: rest, 48 ≤ x ∧ x ≤ 57 ∧ x - 48 < base) :
    parseCore base (d :: rest) =
      some ((d :: rest).foldl (fun a x => a * base + (x - 48)) 0) := by
  unfold parseCore
  by_cases hb : base = 8
  · subst hb
    cases rest with
    | nil => exact parseDigits_digits 8 d [] hds
    | cons d1 rest2 =>
      obtain ⟨ha1, ha2, ha3⟩ := hds d1 (by simp)
      have hcond : ¬(d = 48 ∧ (d1 = 111 ∨ d1 = 79)) := by
        rintro ⟨h48, h111 | h79⟩ <;> omega
      rw [if_pos rfl]
      simp only [if_neg hcond]
      exact parseDigits_digits 8 d (d1 :: rest2) hds
  · rw [if_neg hb]
    exact parseDigits_digits base d rest hds

/-- Leading whitespace-byte runs are dropped wholesale. -/
lemma dropWhile_replicate32 (n : Nat) (l : Bytes) :
    List.dropWhile isPyWsB (List.replicate n 32 ++ l) = List.dropWhile isPyWsB l := by
  induction n with
  | zero => rfl
  | succ m ih =>
    rw [List.replicate_succ, List.cons_append, List.dropWhile_cons]
    simp only [isPyWsB]
    simpa using ih

/-- dropWhile is the identity on a list without whitespace bytes. -/
lemma dropWhile_nonws (l : Bytes) (h : ∀ d ∈ l, isPyWsB d = false) :
    List.dropWhile isPyWsB l = l := by
  cases l with
  | nil => rfl
  | cons d rest =>
    rw [List.dropWhile_cons, h d (by simp)]
    simp

/-- Surrounding space padding is exactly what the int() strip removes from
a digit field. -/
lemma pyStripBytes_digits (pre post : Nat) (ds : Bytes)
    (h : ∀ d ∈ ds, isPyWsB d = false) (hne : ds ≠ []) :
    pyStripBytes (List.replicate pre 32 ++ ds ++ List.replicate post 32) = ds := by
  unfold pyStripBytes
  rw [List.append_assoc, dropWhile_replicate32]
  cases ds with
  | nil => exact absurd rfl hne
  | cons d rest =>
    rw [List.cons_append, List.dropWhile_cons, h d (by simp)]
    simp only [Bool.false_eq_true, if_false]
    rw [List.reverse_cons, List.reverse_append, List.reverse_replicate,
        List.append_assoc, dropWhile_replicate32]
    have hnw : ∀ y ∈ rest.reverse ++ [d], isPyWsB y = false := by
      intro y hy
      rcases List.mem_append.mp hy with hy | hy
      · exact h y (by simp at hy; simp [hy])
      · simp at hy
        rw [hy]
        exact h d (by simp)
    rw [dropWhile_nonws (rest.reverse ++ [d]) hnw]
    rw [List.reverse_append]
    simp

/-- C5 (amended): read_uint returns 0 on an all-space field; a field whose
text is an unsigned digit sequence with optional surrounding spaces yields
its non-negative value; and it fails with MalformedInteger exactly when
the int() builtin rejects the text -- but int() also honours signs, so a
minus-signed field returns a negative value instead of failing (see the
counterexample). -/
theorem c5_theorem (base : Nat) :
    (∀ n : Nat, readIntField (List.replicate n 32) base = Except.ok 0) ∧
    (∀ (pre post : Nat) (ds : Bytes), ds ≠ [] →
      (∀ d ∈ ds, 48 ≤ d ∧ d ≤ 57 ∧ d - 48 < base) →
      readIntField (List.replicate pre 32 ++ ds ++ List.replicate post 32) base =
        Except.ok (digitsValue base ds) ∧ 0 ≤ digitsValue base ds) ∧
    (∀ field : Bytes, field ≠ List.replicate field.length 32 →
      pyInt field base = none →
      readIntField field base = Except.error Err.invalidInt) := by
  refine ⟨?_, ?_, ?_⟩
  · intro n
    unfold readIntField
    rw [if_pos (by simp)]
  · intro pre post ds hne hds
    have hnw : ∀ d ∈ ds, isPyWsB d = false := by
      intro d hd
      have h48 := (hds d hd).1
      simp only [isPyWsB, Bool.or_eq_false_iff, decide_eq_false_iff_not]
      omega
    obtain ⟨d, rest, rfl⟩ : ∃ d rest, ds = d :: rest := by
      cases ds with
      | nil => exact absurd rfl hne
      | cons d r => exact ⟨d, r, rfl⟩
    have hd1 := (hds d (by simp)).1
    have hpy : pyInt (List.replicate pre 32 ++ (d :: rest) ++ List.replicate post 32)
        base = some (digitsValue base (d :: rest)) := by
      unfold pyInt
      rw [pyStripBytes_digits pre post (d :: rest) hnw hne]
      have h45 : ¬(d = 45) := by omega
      have h43 : ¬(d = 43) := by omega
      simp only [if_neg h45, if_neg h43]
      rw [parseCore_digits base d rest hds]
      rfl
    constructor
    · unfold readIntField
      rw [if_neg ?hrep, hpy]
      case hrep =>
        intro hrepl
        have hd32 : d = 32 := by
          have hmem : d ∈ List.replicate pre 32 ++ (d :: rest) ++ List.replicate post 32 := by
            simp
          rw [hrepl] at hmem
          exact List.eq_of_mem_replicate hmem
        omega
    · exact Int.natCast_nonneg _
  · intro field hrep hnone
    unfold readIntField
    rw [if_neg hrep, hnone]

/-- Witness for c5_theorem: the field of seven spaces followed by the
digits 120 decodes to the non-negative value 120. -/
theorem c5_witness :
    readIntField (List.replicate 7 32 ++ [49, 50, 48] ++ List.replicate 0 32) 10 =
      Except.ok (digitsValue 10 [49, 50, 48]) ∧ 0 ≤ digitsValue 10 [49, 50, 48] :=
  (c5_theorem 10).2.1 7 0 [49, 50, 48] (by decide) (by decide)

/-- A successful read on a content stream with a sane cursor returns at
most min(n, remaining) bytes, advances the count by exactly the bytes
returned, and keeps the header. -/
lemma fileRead_ok (st : File) (n : Int) (bs : Bytes) (st' : File)
    (hn : 0 ≤ n) (hrc : (st.readCount : Int) ≤ st.header.size)
    (he : fileRead st n = Except.ok (bs, st')) :
    (bs.length : Int) ≤ min n (st.header.size - st.readCount) ∧
    st'.readCount = st.readCount + bs.length ∧ st'.header = st.header := by
  unfold fileRead at he
  by_cases hl : (st.header.size - (st.readCount : Int)) = 0
  · rw [if_pos hl] at he
    obtain ⟨rfl, rfl⟩ : bs = [] ∧ st' = st := by
      cases he
      exact ⟨rfl, rfl⟩
    refine ⟨?_, by simp, rfl⟩
    rw [hl]
    simp [le_min_iff, hn]
  · rw [if_neg hl] at he
    have hlpos : 0 < st.header.size - (st.readCount : Int) := by omega
    have hminpos : 0 ≤ min n (st.header.size - (st.readCount : Int)) := by
      rw [le_min_iff]
      omega
    unfold pythonRead at he
    rw [if_pos hminpos] at he
    simp only [Except.bind] at he
    obtain ⟨rfl, rfl⟩ :
        bs = (st.src.drop st.pos).take (min n (st.header.size - (st.readCount : Int))).toNat ∧
        st' = { st with
                pos := st.pos + ((st.src.drop st.pos).take
                  (min n (st.header.size - (st.readCount : Int))).toNat).length,
                readCount := st.readCount + ((st.src.drop st.pos).take
                  (min n (st.header.size - (st.readCount : Int))).toNat).length } := by
      cases he
      exact ⟨rfl, rfl⟩
    refine ⟨?_, rfl, rfl⟩
    have hlen : ((st.src.drop st.pos).take
        (min n (st.header.size - (st.readCount : Int))).toNat).length ≤
        (min n (st.header.size - (st.readCount : Int))).toNat := by
      simp [List.length_take]
    have := Int.toNat_of_nonneg hminpos
    omega

/-- Total bytes returned by a sequence of non-negative reads never exceed
the bytes remaining at the start of the sequence. -/
lemma runReads_le (st : File) (ns : List Int)
    (hrc : (st.readCount : Int) ≤ st.header.size)
    (hns : ∀ n ∈ ns, 0 ≤ n) :
    ((runReads st ns : Nat) : Int) ≤ st.header.size - st.readCount := by
  induction ns generalizing st with
  | nil =>
    simp only [runReads]
    omega
  | cons n ns ih =>
    have hn : 0 ≤ n := hns n (by simp)
    cases hr : fileRead st n with
    | error e =>
      simp only [runReads, hr]
      omega
    | ok v =>
      obtain ⟨bs, st'⟩ := v
      obtain ⟨hlen, hcount, hhd⟩ := fileRead_ok st n bs st' hn hrc hr
      have hrc' : (st'.readCount : Int) ≤ st'.header.size := by
        rw [hhd, hcount]
        push_cast
        have : (bs.length : Int) ≤ st.header.size - st.readCount :=
          le_trans hlen (min_le_right _ _)
        omega
      have := ih st' hrc' (fun m hm => hns m (by simp [hm]))
      simp only [runReads, hr]
      rw [hhd] at this
      have hmin : (bs.length : Int) ≤ st.header.size - st.readCount :=
        le_trans hlen (min_le_right _ _)
      push_cast
      omega

/-- C7 (amended): for a content stream bound to a header with non-negative
declared size, a read at remaining 0 returns the empty result unchanged;
a successful non-negative read returns at most min(n, remaining) bytes and
advances the returned-byte count by exactly the bytes returned; and the
total bytes over any sequence of non-negative read requests never exceeds
the declared size.  (Negative requests are excluded: the source forwards
min(n, remaining) to the backing stream, and a -1 reaching it reads to end
of file, over-running the declared size -- see the counterexample.) -/
theorem c7_theorem (h : Header) (src : Bytes) (hs : 0 ≤ h.size) :
    (∀ (st : File) (n : Int), st.header = h → (st.readCount : Int) = h.size →
      fileRead st n = Except.ok ([], st)) ∧
    (∀ (st : File) (n : Int) (bs : Bytes) (st' : File), st.header = h → 0 ≤ n →
      (st.readCount : Int) ≤ h.size → fileRead st n = Except.ok (bs, st') →
      (bs.length : Int) ≤ min n (h.size - st.readCount) ∧
      st'.readCount = st.readCount + bs.length) ∧
    (∀ ns : List Int, (∀ n ∈ ns, 0 ≤ n) →
      ((runReads (fileOpen h src) ns : Nat) : Int) ≤ h.size) := by
  refine ⟨?_, ?_, ?_⟩
  · intro st n hh hz
    unfold fileRead
    rw [if_pos (by rw [hh, hz]; omega)]
  · intro st n bs st' hh hn hrc he
    have := fileRead_ok st n bs st' hn (by rw [hh]; exact hrc) he
    rw [hh] at this
    exact ⟨this.1, this.2.1⟩
  · intro ns hns
    have := runReads_le (fileOpen h src) ns (by simpa [fileOpen] using hs) hns
    simp only [fileOpen] at this ⊢
    omega

/-- Witness for c7_theorem: on the first entry (size 2) of the concrete
two-entry archive, the reads 1 then 5 return two bytes in total, within
the declared size. -/
theorem c7_witness :
    ((runReads (fileOpen (Header.mk ("a") 0 0 0 0 2 68 8) twoEntryBytes)
        [1, 5] : Nat) : Int) ≤ (Header.mk ("a") 0 0 0 0 2 68 8).size :=
  (c7_theorem (Header.mk ("a") 0 0 0 0 2 68 8) twoEntryBytes (by decide)).2.2
    [1, 5] (by decide)

/-- The even-aligned table size written by the commit is the cumulative
offset rounded up to even. -/
lemma spacePad_fst (off : Int) : (spacePad off).1 = off + off % 2 := by
  unfold spacePad
  rcases Int.emod_two_eq_zero_or_one off with h | h <;> simp [h]

/-- The pad flag of the commit is set exactly on an odd cumulative size. -/
lemma spacePad_snd (off : Int) : (spacePad off).2 = decide (off % 2 = 1) := by
  unfold spacePad
  rcases Int.emod_two_eq_zero_or_one off with h | h <;> simp [h]

/-- On ASCII names the encoding loop succeeds with the pure table body. -/
lemma joinNamesE_ok (names : List String)
    (h : ∀ n ∈ names, ∀ c ∈ n.data, c.toNat < 128) :
    joinNamesE names = Except.ok (joinNames names) := by
  induction names with
  | nil => rfl
  | cons n rest ih =>
    have hn : encodeAscii n = Except.ok (asciiBytes n) := by
      unfold encodeAscii
      rw [if_pos]
      rw [List.all_eq_true]
      intro c hc
      simpa using h n (by simp) c hc
    
    have hn' : (encodeAscii n).mapError (fun _ => Err.encodeError) =
        Except.ok (asciiBytes n) := by rw [hn]; rfl
    have hrest := ih (fun m hm => h m (by simp [hm]))
    simp only [joinNamesE, hn', hrest, Except.bind, bind, joinNames, List.foldr_cons]

/-- C4 (amended): whenever a merge commit writes a filename-table header
with new long names (synthesized fresh or copied from the prior table),
the 10-byte size field it writes, located right after the first 48 header
bytes, is the new cumulative table size rounded up to even; the pad byte,
appended after the table content exactly when the cumulative size is odd,
is counted in the size field (the claimed exact cumulative value is off by
one in the odd case, see the counterexample). -/
theorem c4_theorem (fn : Option Header) (src : Bytes) (names : List String)
    (off : Int) (hne : names ≠ [])
    (hascii : ∀ n ∈ names, ∀ c ∈ n.data, c.toNat < 128)
    (hok : ∀ f, fn = some f → 0 ≤ f.size ∧ f.position + 48 ≤ src.length) :
    ∃ pre oldBody : Bytes,
      writeTable fn src names (spacePad off).1 (spacePad off).2 =
        Except.ok (pre ++ asciiBytes (pyFormatD 10 (off + off % 2)) ++
          magicNumberB ++ oldBody ++ joinNames names ++
          (if off % 2 = 1 then [10] else [])) ∧
      pre.length = 48 := by
  have hje := joinNamesE_ok names hascii
  have hner : names.isEmpty = false := by
    cases names with
    | nil => exact absurd rfl hne
    | cons a l => rfl
  have hpad : (if (spacePad off).2 = true then ([10] : Bytes) else []) =
      (if off % 2 = 1 then [10] else []) := by
    rw [spacePad_snd]
    by_cases h : off % 2 = 1 <;> simp [h]
  cases fn with
  | none =>
    refine ⟨asciiBytes ("//") ++ List.replicate 46 32, [], ?_, by simp [asciiBytes]⟩
    simp only [writeTable, hner, Bool.false_eq_true, if_false, hje,
               Except.bind, bind, spacePad_fst, hpad]
    simp [List.append_assoc]
  | some f =>
    obtain ⟨hsz, hlen⟩ := hok f rfl
    have h1 : pythonRead src f.position 48 =
        Except.ok ((src.drop f.position).take 48,
          f.position + ((src.drop f.position).take 48).length) := by
      unfold pythonRead
      rw [if_pos (by norm_num)]
      rfl
    have h2 : pythonRead src f.offset f.size =
        Except.ok ((src.drop f.offset).take f.size.toNat,
          f.offset + ((src.drop f.offset).take f.size.toNat).length) := by
      unfold pythonRead
      rw [if_pos hsz]
    refine ⟨(src.drop f.position).take 48, (src.drop f.offset).take f.size.toNat,
      ?_, ?_⟩
    · simp only [writeTable, hner, Bool.false_eq_true, if_false, h1, h2, hje,
                 Except.bind, bind, spacePad_fst, hpad]
    · rw [List.length_take, List.length_drop]
      omega

/-- Witness for c4_theorem: synthesizing a fresh table for one 17-character
name with cumulative size 19 writes the even-rounded size field. -/
theorem c4_witness :
    ∃ pre oldBody : Bytes,
      writeTable none [] [("abcdefghijklmnopq/")] (spacePad 19).1 (spacePad 19).2 =
        Except.ok (pre ++ asciiBytes (pyFormatD 10 (19 + 19 % 2)) ++
          magicNumberB ++ oldBody ++ joinNames [("abcdefghijklmnopq/")] ++
          (if (19 : Int) % 2 = 1 then [10] else [])) ∧
      pre.length = 48 :=
  c4_theorem none [] [("abcdefghijklmnopq/")] 19 (by decide) (by decide)
    (fun f h => by cases h)

/-- The read-until-newline loop returns exactly the ASCII characters
preceding the newline. -/
lemma readNameLoop_chars (cs : List Char) (tail : Bytes)
    (h : ∀ c ∈ cs, c.toNat < 128 ∧ c ≠ '\n') :
    readNameLoop (cs.map Char.toNat ++ 10 :: tail) = Except.ok cs := by
  induction cs with
  | nil => rfl
  | cons c rest ih =>
    obtain ⟨h128, hnl⟩ := h c (by simp)
    have h10 : ¬(c.toNat = 10) := by
      intro h10
      apply hnl
      have := Char.ofNat_toNat c
      rw [h10] at this
      rw [← this]
    simp only [List.map_cons, List.cons_append, readNameLoop, if_neg h10,
               if_pos h128, List.append_eq,
               ih (fun x hx => h x (by simp [hx])), Except.bind, bind,
               Char.ofNat_toNat]

/-- Stripping the terminator slash recovers the name. -/
lemma stripOneSlash_append_slash (s : String) : stripOneSlash (s ++ ("/")) = s := by
  unfold stripOneSlash
  rw [String.data_append]
  have hlast : (s.data ++ ("/").data).getLast? = some '/' := by
    simp [List.getLast?_concat]
  rw [if_pos (by simp [hlast])]
  have hdl : (s.data ++ ("/").data).dropLast = s.data := by
    simp [List.dropLast_concat]
  rw [hdl]

/-- Resolving a reference that points at a newline-terminated name lying
right after a prefix of the table returns the name, slash-stripped. -/
lemma resolveExtName_head (A : Bytes) (nm : String) (tail : Bytes)
    (h : ∀ c ∈ nm.data, c.toNat < 128 ∧ c ≠ '\n') :
    resolveExtName (A ++ (asciiBytes nm ++ [10] ++ tail)) A.length =
      Except.ok (stripOneSlash nm) := by
  unfold resolveExtName readNameChars
  rw [List.drop_left]
  rw [show asciiBytes nm ++ [10] ++ tail = asciiBytes nm ++ (10 :: tail) by
    rw [List.append_assoc]; rfl]
  have := readNameLoop_chars nm.data tail h
  simp only [asciiBytes, this, Except.bind, bind]

/-- Unfolding of the pending-name loop on a long name: it is recorded in
the table list and replaced by the reference to the current offset, the
offset advancing by the name length plus one. -/
lemma computeExtended_cons_long (hd : Header) (sb : Bytes)
    (rest : List (Header × Bytes)) (off : Int)
    (h : 16 < (hd.name ++ ("/")).length) :
    computeExtended ((hd, sb) :: rest) off =
      ((hd.name ++ ("/")) ::
         (computeExtended rest (off + ((hd.name ++ ("/")).length + 1 : Nat))).1,
       (("/") ++ toString off, hd, sb) ::
         (computeExtended rest (off + ((hd.name ++ ("/")).length + 1 : Nat))).2.1,
       (computeExtended rest (off + ((hd.name ++ ("/")).length + 1 : Nat))).2.2) := by
  rcases hR : computeExtended rest (off + ((hd.name ++ ("/")).length + 1 : Nat))
    with ⟨fs, ex, off2⟩
  simp only [computeExtended]
  rw [if_pos h, hR]

/-- Unfolding of the pending-name loop on a short name: it stays inline
and the offset is unchanged. -/
lemma computeExtended_cons_short (hd : Header) (sb : Bytes)
    (rest : List (Header × Bytes)) (off : Int)
    (h : ¬(16 < (hd.name ++ ("/")).length)) :
    computeExtended ((hd, sb) :: rest) off =
      ((computeExtended rest off).1,
       (hd.name ++ ("/"), hd, sb) :: (computeExtended rest off).2.1,
       (computeExtended rest off).2.2) := by
  rcases hR : computeExtended rest off with ⟨fs, ex, off2⟩
  simp only [computeExtended]
  rw [if_neg h, hR]

/-- C3 (amended): for every pending entry whose name with terminator slash
is strictly longer than the 16-byte field (the claimed threshold of
exactly 16 stays inline, see the counterexample), the substituted name is
an extended reference of the form /offset with the offset at or beyond
the existing table body, and resolving it in the rewritten table (old
body followed by the new names, each newline-terminated) by reading up to
the newline and stripping one trailing slash yields exactly the original
name. -/
theorem c3_theorem (entries : List (Header × Bytes)) (oldBody : Bytes) (k : Nat)
    (hk : k < entries.length)
    (hval : ∀ e ∈ entries, ∀ c ∈ (Prod.fst e).name.data, c.toNat < 128 ∧ c ≠ '\n')
    (hlong : 16 < ((entries.get ⟨k, hk⟩).1.name ++ ("/")).length) :
    ∃ off : Nat, oldBody.length ≤ off ∧
      ((computeExtended entries ((oldBody.length : Nat) : Int)).2.1.get? k).map
          Prod.fst = some (("/") ++ toString ((off : Nat) : Int)) ∧
      resolveExtName
        (oldBody ++ joinNames (computeExtended entries ((oldBody.length : Nat) : Int)).1)
        off = Except.ok ((entries.get ⟨k, hk⟩).1.name) := by
  induction entries generalizing oldBody k with
  | nil => exact absurd hk (by simp)
  | cons e rest ih =>
    obtain ⟨hd, sb⟩ := e
    by_cases hl : 16 < (hd.name ++ ("/")).length
    · rw [computeExtended_cons_long hd sb rest _ hl]
      cases k with
      | zero =>
        refine ⟨oldBody.length, le_refl _, by simp, ?_⟩
        have hchars : ∀ c ∈ (hd.name ++ ("/")).data, c.toNat < 128 ∧ c ≠ '\n' := by
          intro c hc
          rw [String.data_append] at hc
          rcases List.mem_append.mp hc with hc | hc
          · exact hval (hd, sb) (by simp) c hc
          · simp at hc
            subst hc
            exact ⟨by decide, by decide⟩
        have hjn : joinNames ((hd.name ++ ("/")) ::
            (computeExtended rest (((oldBody.length : Nat) : Int) +
              ((hd.name ++ ("/")).length + 1 : Nat))).1) =
            asciiBytes (hd.name ++ ("/")) ++ [10] ++
            joinNames (computeExtended rest (((oldBody.length : Nat) : Int) +
              ((hd.name ++ ("/")).length + 1 : Nat))).1 := by
          simp [joinNames]
        rw [hjn, resolveExtName_head oldBody (hd.name ++ ("/")) _ hchars,
            stripOneSlash_append_slash]
        simp
      | succ k2 =>
        have hk2 : k2 < rest.length := by simpa using hk
        have hval2 : ∀ e ∈ rest, ∀ c ∈ (Prod.fst e).name.data,
            c.toNat < 128 ∧ c ≠ '\n' :=
          fun e he => hval e (by simp [he])
        have hlong2 : 16 < ((rest.get ⟨k2, hk2⟩).1.name ++ ("/")).length := by
          simpa using hlong
        obtain ⟨off, hle, hget, hres⟩ :=
          ih (oldBody ++ asciiBytes (hd.name ++ ("/")) ++ [10]) k2 hk2 hval2 hlong2
        have hlen' : (((oldBody ++ asciiBytes (hd.name ++ ("/")) ++ [10]).length :
            Nat) : Int) =
            ((oldBody.length : Nat) : Int) + ((hd.name ++ ("/")).length + 1 : Nat) := by
          have h1 : (asciiBytes (hd.name ++ ("/"))).length =
              (hd.name ++ ("/")).length := List.length_map _ _
          rw [List.length_append, List.length_append, h1]
          push_cast
          simp only [List.length_singleton]
          omega
        rw [hlen'] at hget hres
        refine ⟨off, ?_, ?_, ?_⟩
        · have hlb : oldBody.length ≤ (oldBody ++ asciiBytes (hd.name ++ ("/")) ++
              [10]).length := by simp
          omega
        · simpa using hget
        · have htab : oldBody ++ joinNames ((hd.name ++ ("/")) ::
              (computeExtended rest (((oldBody.length : Nat) : Int) +
                ((hd.name ++ ("/")).length + 1 : Nat))).1) =
              (oldBody ++ asciiBytes (hd.name ++ ("/")) ++ [10]) ++
              joinNames (computeExtended rest (((oldBody.length : Nat) : Int) +
                ((hd.name ++ ("/")).length + 1 : Nat))).1 := by
            simp [joinNames, List.append_assoc]
          rw [htab]
          simpa using hres
    · rw [computeExtended_cons_short hd sb rest _ hl]
      cases k with
      | zero => exact absurd hlong (by simpa using hl)
      | succ k2 =>
        have hk2 : k2 < rest.length := by simpa using hk
        have hval2 : ∀ e ∈ rest, ∀ c ∈ (Prod.fst e).name.data,
            c.toNat < 128 ∧ c ≠ '\n' :=
          fun e he => hval e (by simp [he])
        have hlong2 : 16 < ((rest.get ⟨k2, hk2⟩).1.name ++ ("/")).length := by
          simpa using hlong
        obtain ⟨off, hle, hget, hres⟩ := ih oldBody k2 hk2 hval2 hlong2
        refine ⟨off, hle, by simpa using hget, by simpa using hres⟩

/-- Witness for c3_theorem: the staged 17-character name becomes the
reference /0 into an empty prior table and resolves back to itself. -/
theorem c3_witness :
    ∃ off : Nat, ([] : Bytes).length ≤ off ∧
      ((computeExtended [longNameEntry] ((([] : Bytes).length : Nat) : Int)).2.1.get?
          0).map Prod.fst = some (("/") ++ toString ((off : Nat) : Int)) ∧
      resolveExtName (([] : Bytes) ++
          joinNames (computeExtended [longNameEntry]
            ((([] : Bytes).length : Nat) : Int)).1) off =
        Except.ok (([longNameEntry].get ⟨0, by decide⟩).1.name) :=
  c3_theorem [longNameEntry] [] 0 (by decide) (by decide) (by decide)

/-- Inversion of a successful bind: the first action succeeded too. -/
lemma except_bind_ok {α β : Type} {x : Except Err α} {f : α → Except Err β}
    {b : β} (h : (x >>= f) = Except.ok b) :
    ∃ a, x = Except.ok a ∧ f a = Except.ok b := by
  cases x with
  | error e =>
    have : (Except.error e >>= f) = (Except.error e : Except Err β) := rfl
    rw [this] at h
    cases h
  | ok a => exact ⟨a, rfl, h⟩

/-- A successful exact read of n bytes leaves the cursor n bytes further. -/
lemma readExact_ok {src : Bytes} {pos n : Nat} {bs : Bytes} {p : Nat}
    (h : readExact src pos n = Except.ok (bs, p)) : p = pos + n := by
  have h' : (if ((src.drop pos).take n).length = n
      then Except.ok (((src.drop pos).take n), pos + n)
      else (Except.error Err.truncated : Except Err (Bytes × Nat))) =
      Except.ok (bs, p) := h
  by_cases hc : ((src.drop pos).take n).length = n
  · rw [if_pos hc] at h'
    simp only [Except.ok.injEq, Prod.mk.injEq] at h'
    exact h'.2.symm
  · rw [if_neg hc] at h'
    cases h' 

/-- A successful fixed-width integer read advances the cursor by the field
width. -/
lemma readInt_ok {src : Bytes} {pos n base : Nat} {v : Int} {p : Nat}
    (h : readInt src pos n base = Except.ok (v, p)) : p = pos + n := by
  unfold readInt at h
  obtain ⟨⟨bs, p1⟩, h1, h⟩ := except_bind_ok h
  obtain ⟨v0, h2, h⟩ := except_bind_ok h
  simp only [Except.ok.injEq, Prod.mk.injEq] at h
  rw [← h.2]
  exact readExact_ok h1

/-- A successfully parsed header records the parse position and consumes
exactly the 60 header bytes. -/
lemma parseHeader_ok {fn : Option Header} {src : Bytes} {pos : Nat}
    {h : Header} {p : Nat}
    (he : parseHeader fn src pos = Except.ok (h, p)) :
    h.position = pos ∧ p = pos + 60 := by
  unfold parseHeader at he
  obtain ⟨⟨nameB, p1⟩, e1, he⟩ := except_bind_ok he
  obtain ⟨nameS, e2, he⟩ := except_bind_ok he
  obtain ⟨name, e3, he⟩ := except_bind_ok he
  obtain ⟨⟨mtime, p2⟩, e4, he⟩ := except_bind_ok he
  obtain ⟨⟨oid, p3⟩, e5, he⟩ := except_bind_ok he
  obtain ⟨⟨gid, p4⟩, e6, he⟩ := except_bind_ok he
  obtain ⟨⟨mode, p5⟩, e7, he⟩ := except_bind_ok he
  obtain ⟨⟨size, p6⟩, e8, he⟩ := except_bind_ok he
  obtain ⟨⟨mg, p7⟩, e9, he⟩ := except_bind_ok he
  dsimp only at he
  by_cases hmg : mg = magicNumberB
  case neg =>
    rw [if_neg hmg] at he
    cases he
  case pos =>
    rw [if_pos hmg] at he
    simp only [Except.ok.injEq, Prod.mk.injEq] at he
    obtain ⟨hh, hp⟩ := he
    have q1 := readExact_ok e1
    have q2 := readInt_ok e4
    have q3 := readInt_ok e5
    have q4 := readInt_ok e6
    have q5 := readInt_ok e7
    have q6 := readInt_ok e8
    have q7 := readExact_ok e9
    constructor
    · rw [← hh]
    · omega

/-- Invariant of the open-time walk: the final trace extends the
accumulator by the newly parsed headers, the visible list extends its
accumulator by exactly the visible ones of those, in order; and when
every new header has non-negative size the new headers' positions are at
or after the walk position and strictly increasing. -/
lemma walk_ok (src : Bytes) (fuel : Nat) :
    ∀ (pos : Nat) (hs tr : List Header) (idx fn : Option Header)
      (w : WalkResult), walk src pos hs tr idx fn fuel = Except.ok w →
      ∃ tr', w.trace = tr ++ tr' ∧ w.headers = hs ++ tr'.filter isVisible ∧
        ((∀ x ∈ tr', 0 ≤ x.size) →
          (∀ x ∈ tr', pos ≤ x.position) ∧
          List.Pairwise (fun a b => a.position < b.position) tr') := by
  induction fuel with
  | zero =>
    intro pos hs tr idx fn w hw
    simp only [walk] at hw
    split at hw
    · cases hw
    · cases hw
      exact ⟨[], by simp, by simp, fun _ => ⟨by simp, by simp⟩⟩
  | succ fuel ih =>
    intro pos hs tr idx fn w hw
    simp only [walk] at hw
    split at hw
    case isFalse hpos =>
      cases hw
      exact ⟨[], by simp, by simp, fun _ => ⟨by simp, by simp⟩⟩
    case isTrue hpos =>
      obtain ⟨⟨h, p⟩, hph, hw⟩ := except_bind_ok hw
      dsimp only at hw
      obtain ⟨hhp, hp60⟩ := parseHeader_ok hph
      split at hw
      · cases hw
      case isFalse hnn =>
        obtain ⟨tr2, htr, hhd, hcond⟩ := ih _ _ _ _ _ _ hw
        refine ⟨h :: tr2, by simpa using htr, ?_, ?_⟩
        · rw [hhd]
          by_cases h1 : h.name = ("/")
          · simp [h1, isVisible]
          · by_cases h2 : h.name = ("//")
            · simp [h1, h2, isVisible]
            · simp [h1, h2, isVisible]
        · intro hsz
          have hszh : 0 ≤ h.size := hsz h (by simp)
          have hsp : 0 ≤ h.space := by
            unfold Header.space
            have := Int.emod_nonneg h.size (by norm_num : (2 : Int) ≠ 0)
            omega
          have hnext : pos + 60 ≤ ((p : Int) + h.space).toNat := by
            omega
          obtain ⟨hmono, hpair⟩ := hcond (fun x hx => hsz x (by simp [hx]))
          constructor
          · intro x hx
            rcases List.mem_cons.mp hx with hx | hx
            · rw [hx, hhp]
            · have := hmono x hx
              omega
          · rw [List.pairwise_cons]
            refine ⟨?_, hpair⟩
            intro x hx
            have := hmono x hx
            rw [hhp]
            omega

/-- C8 (amended): for every successfully opened archive, the visible list
is exactly the walk's parse trace with the two special entries filtered
out, in walk order, so listing yields the visible entries in the order
encountered and never includes the slash or double-slash entries; when
every parsed header has non-negative declared size (every well-formed
archive), the walk order coincides with strictly increasing header
positions (a negative size field can make the walk jump backwards and
break position order, see the counterexample). -/
theorem c8_theorem (p : String) (f : Bytes) (a : Archive)
    (h : archiveInit p f = Except.ok a) :
    a.headers = a.trace.filter isVisible ∧
    (∀ x ∈ a.headers, x.name ≠ ("/") ∧ x.name ≠ ("//")) ∧
    ((∀ x ∈ a.trace, 0 ≤ x.size) →
      List.Pairwise (fun x y => x.position < y.position) a.headers) := by
  unfold archiveInit at h
  split at h
  case isFalse => cases h
  case isTrue hm =>
    obtain ⟨w, hw, h⟩ := except_bind_ok h
    simp only [Except.ok.injEq] at h
    subst h
    obtain ⟨tr', htr, hhd, hcond⟩ := walk_ok f (f.length + 1) 8 [] [] none none w hw
    have htr' : w.trace = tr' := by simpa using htr
    have hhd' : w.headers = tr'.filter isVisible := by simpa using hhd
    refine ⟨?_, ?_, ?_⟩
    · dsimp only
      rw [hhd', htr']
    · intro x hx
      dsimp only at hx
      rw [hhd'] at hx
      have hv := (List.mem_filter.mp hx).2
      simp only [isVisible, Bool.and_eq_true, Bool.not_eq_true', beq_eq_false_iff_ne,
                 ne_eq] at hv
      exact hv
    · intro hsz
      dsimp only at hsz ⊢
      rw [htr'] at hsz
      obtain ⟨_, hpair⟩ := hcond hsz
      rw [hhd']
      exact List.Pairwise.sublist (List.filter_sublist tr') hpair

/-- Witness for c8_theorem: the concrete well-formed two-entry archive
opens with a visible list equal to its filtered trace, no special names,
and strictly increasing positions. -/
theorem c8_witness :
    ((archiveInit ("f") twoEntryBytes).toOption.getD default).headers =
      ((archiveInit ("f") twoEntryBytes).toOption.getD default).trace.filter
        isVisible :=
  (c8_theorem ("f") twoEntryBytes
    ((archiveInit ("f") twoEntryBytes).toOption.getD default) (by rfl)).1
